import Mathlib

/-!
Verification of the komodo build orchestrator (`komodo/build.py`).

The development shallowly embeds the dependency resolver (`dfs`), the
deduplication and per-entry validation/dispatch loop of `make`, the
`cmake` strategy's process-environment mutations, and the `download`
strategy.  Python dicts of requested versions are association lists;
the repository (a dict of dicts) is a partial function
`String → String → Option PkgMeta`; a failed dict lookup (Python
`KeyError`) is an explicit `keyError` result; `sys.exit(1)` in `dfs` is
the `exitError` result.  The unbounded recursion of `dfs` is modelled
with explicit fuel: `outOfFuel` means the Python traversal is still
recursing (and, for a cyclic graph, never stops).
-/

namespace Komodo

/-- Per-version package metadata: the `make` build-method string and the
optional fields of the repository dict that `build.py` reads
(`depends`, `url`, `hash`, `destination`, `pypi_package_name`). -/
structure PkgMeta where
  make : String
  depends : Option (List String) := none
  url : Option String := none
  hash : Option String := none
  destination : Option String := none
  pypi_package_name : Option String := none
  deriving Repr, DecidableEq

/-- The repository: package name → version → metadata; `none` is a
missing dict key (Python `KeyError` on access). -/
abbrev Repo := String → String → Option PkgMeta

/-- Lookup in the requested set (a Python dict, modelled as an
insertion-ordered association list): first matching key wins. -/
def lookupStr : List (String × String) → String → Option String
  | [], _ => none
  | (k, v) :: rest, key => if k = key then some v else lookupStr rest key

/-- Result of the resolution phase.  `ok` is a normal return of the
emitted package list; `exitError deps` is the `sys.exit(1)` taken when
some declared dependency is not in the requested set (the error message
prints the joined `deps` list); `keyError` is an uncaught Python
`KeyError` from a dict lookup; `outOfFuel` means the recursion has not
terminated within the given fuel. -/
inductive DfsResult where
  | ok (order : List String)
  | exitError (deps : List String)
  | keyError
  | outOfFuel
  deriving Repr, DecidableEq

/-- The list comprehension
`[dfs(x, pkgs[x], pkgs, repo) for x in depends]` followed by the
flatten: each dependency is looked up in `pkgs` (`KeyError` if absent)
and `f` is applied; results are concatenated, errors propagate from the
leftmost failing element. -/
def depsFold (pkgs : List (String × String)) (f : String → String → DfsResult) :
    List String → DfsResult
  | [] => .ok []
  | d :: rest =>
    match lookupStr pkgs d with
    | none => .keyError
    | some vd =>
      match f d vd with
      | .ok l =>
        match depsFold pkgs f rest with
        | .ok ls => .ok (l ++ ls)
        | r => r
      | r => r

/-- `dfs` from `build.py` (lines 24–44), with explicit fuel.  A package
whose metadata has no `depends` key is emitted alone; otherwise all
declared dependencies must be keys of the requested set `pkgs` (else
`sys.exit(1)`), each is resolved recursively at its requested version,
and the package itself is emitted last. -/
def dfs : Nat → String → String → List (String × String) → Repo → DfsResult
  | 0, _, _, _, _ => .outOfFuel
  | fuel + 1, package_name, ver, pkgs, repo =>
    match repo package_name ver with
    | none => .keyError
    | some meta =>
      match meta.depends with
      | none => .ok [package_name]
      | some deps =>
        if deps.all (fun d => (lookupStr pkgs d).isSome) then
          match depsFold pkgs (fun d vd => dfs fuel d vd pkgs repo) deps with
          | .ok ls => .ok (ls ++ [package_name])
          | r => r
        else .exitError deps

/-- `flatten(dfs(pkg, ver, pkgs, repo) for pkg, ver in pkgs.items())`
(line 260): run `dfs` for each requested root in declaration order and
concatenate, propagating the leftmost error. -/
def dfsRoots (fuel : Nat) (pkgs : List (String × String)) (repo : Repo) :
    List (String × String) → DfsResult
  | [] => .ok []
  | (p, v) :: rest =>
    match dfs fuel p v pkgs repo with
    | .ok l =>
      match dfsRoots fuel pkgs repo rest with
      | .ok ls => .ok (l ++ ls)
      | r => r
    | r => r

/-- The full emission stream of the resolution phase, before
deduplication. -/
def resolveEmissions (fuel : Nat) (pkgs : List (String × String)) (repo : Repo) : DfsResult :=
  dfsRoots fuel pkgs repo pkgs

/-- The dedup loop of `make` (lines 262–268): a `seen` set and an output
list, keeping the first occurrence of each element.  The Python set is
modelled as the list of already-seen names. -/
def dedupAux (seen : List String) : List String → List String
  | [] => []
  | x :: xs => if x ∈ seen then dedupAux seen xs else x :: dedupAux (x :: seen) xs

/-- First-seen deduplication, i.e. the `pkgorder` computation. -/
def firstSeenDedup (l : List String) : List String := dedupAux [] l

/-- The resolution phase of `make` (lines 260–268): emissions from all
roots, deduplicated keeping first occurrences. -/
def resolveOrder (fuel : Nat) (pkgs : List (String × String)) (repo : Repo) : DfsResult :=
  match resolveEmissions fuel pkgs repo with
  | .ok e => .ok (firstSeenDedup e)
  | r => r

/-- `p` directly depends on `d`: at `p`'s requested version, `p`'s
metadata declares a `depends` list containing `d`. -/
def dependsOn (pkgs : List (String × String)) (repo : Repo) (p d : String) : Prop :=
  ∃ v meta deps, lookupStr pkgs p = some v ∧ repo p v = some meta ∧
    meta.depends = some deps ∧ d ∈ deps

/-! ### The orchestration loop of `make` (lines 270–394)

The loop is modelled as a trace of externally visible actions
(`mkdir -p` of the staging root, and one strategy dispatch per plan
entry) together with an optional error.  Strategy internals (paths,
options, their own side effects) are abstracted into the dispatch
event; strategies are assumed to succeed, which is exact for the claims
below since they only concern what happens up to the first
configuration error. -/

/-- Errors of the orchestration phase.  The three `ValueError`s of
lines 306–318 and the `Non-supported make` of line 393 get their own
constructors; resolution-phase failures are wrapped. -/
inductive MakeErr where
  | resolveExit (deps : List String)
  | resolveKeyError
  | resolveOutOfFuel
  | keyError
  | downloadFieldsOnlyWithDownload
  | downloadFieldsAllRequired
  | pypiNameOnlyWithPip
  | unsupportedMake (m : String)
  deriving Repr, DecidableEq

/-- Externally visible actions of the orchestration run:
`mkdirCmd` is the `shell(["mkdir -p", fakeprefix])` of line 271;
`dispatch method entry effective` is the invocation of a strategy for
plan entry `entry` (`effective` is the name after the
`pypi_package_name` override of line 320). -/
inductive Ev where
  | mkdirCmd (dir : String)
  | dispatch (method entry effective : String)
  deriving Repr, DecidableEq

/-- `any(key in current for key in ["url", "destination", "hash"])`. -/
def hasDownloadKey (m : PkgMeta) : Bool :=
  m.url.isSome || m.destination.isSome || m.hash.isSome

/-- `all(key in current for key in ["url", "destination", "hash"])`. -/
def allDownloadKeys (m : PkgMeta) : Bool :=
  m.url.isSome && m.destination.isSome && m.hash.isSome

/-- One iteration of the dispatch loop (lines 300–393) for plan entry
`package_name`: version and metadata lookups (`KeyError` when absent),
the three metadata validations, then dispatch on the `make` field.
Note the source's control flow: `make == "rpm"` is a separate `if`
statement, so an rpm entry is dispatched and then still falls into the
final `else` branch that raises `Non-supported make`. -/
def processEntry (pkgs : List (String × String)) (repo : Repo) (package_name : String) :
    List Ev × Option MakeErr :=
  match lookupStr pkgs package_name with
  | none => ([], some .keyError)
  | some ver =>
    match repo package_name ver with
    | none => ([], some .keyError)
    | some current =>
      if hasDownloadKey current ∧ current.make ≠ "download" then
        ([], some .downloadFieldsOnlyWithDownload)
      else if ¬ allDownloadKeys current ∧ current.make = "download" then
        ([], some .downloadFieldsAllRequired)
      else if current.pypi_package_name.isSome ∧ current.make ≠ "pip" then
        ([], some .pypiNameOnlyWithPip)
      else
        let effective := current.pypi_package_name.getD package_name
        let rpmEvs : List Ev :=
          if current.make = "rpm" then [.dispatch "rpm" package_name effective] else []
        if current.make = "cmake" then
          (rpmEvs ++ [.dispatch "cmake" package_name effective], none)
        else if current.make = "pip" then
          (rpmEvs ++ [.dispatch "pip" package_name effective], none)
        else if current.make = "sh" then
          (rpmEvs ++ [.dispatch "sh" package_name effective], none)
        else if current.make = "rsync" then
          (rpmEvs ++ [.dispatch "rsync" package_name effective], none)
        else if current.make = "noop" then
          (rpmEvs ++ [.dispatch "noop" package_name effective], none)
        else if current.make = "download" then
          (rpmEvs ++ [.dispatch "download" package_name effective], none)
        else
          (rpmEvs, some (.unsupportedMake current.make))

/-- The dispatch loop over the deduplicated plan: events accumulate in
order; the first error aborts the run. -/
def makeLoop (pkgs : List (String × String)) (repo : Repo) :
    List String → List Ev × Option MakeErr
  | [] => ([], none)
  | p :: rest =>
    match processEntry pkgs repo p with
    | (evs, some e) => (evs, some e)
    | (evs, none) =>
      let r := makeLoop pkgs repo rest
      (evs ++ r.1, r.2)

/-- The observable behaviour of `make` (lines 260–394): resolve, then
`mkdir -p fakeroot+prefix` (line 271, before any validation), then the
per-entry validate-and-dispatch loop. -/
def makeRun (fuel : Nat) (pkgs : List (String × String)) (repo : Repo)
    (fakeroot pfx : String) : List Ev × Option MakeErr :=
  match resolveOrder fuel pkgs repo with
  | .ok pkgorder =>
    let r := makeLoop pkgs repo pkgorder
    (.mkdirCmd (fakeroot ++ pfx) :: r.1, r.2)
  | .exitError ds => ([], some (.resolveExit ds))
  | .keyError => ([], some .resolveKeyError)
  | .outOfFuel => ([], some .resolveOutOfFuel)

/-! ### The `cmake` strategy's environment mutations (lines 94–106)

The process environment is a partial map from variable names to
values.  The strategy sets `LD_LIBRARY_PATH` and `PATH`, runs the
external configure/build/install commands (summarised by `shellOk`:
`false` means one of them raised, propagating out of `cmake`), and only
on the success path deletes `LD_LIBRARY_PATH` and writes the saved
`PATH` back.  There is no `try`/`finally` in the source. -/

/-- `os.environ[k] = v`. -/
def envSet (env : String → Option String) (k v : String) : String → Option String :=
  fun x => if x = k then some v else env x

/-- `del os.environ[k]`. -/
def envDel (env : String → Option String) (k : String) : String → Option String :=
  fun x => if x = k then none else env x

/-- The environment effect of one `cmake` strategy invocation: returns
the final environment and whether the call returned normally.  Reading
`os.environ["PATH"]` raises `KeyError` when `PATH` is unset, in which
case the already-performed `LD_LIBRARY_PATH` write leaks as well. -/
def cmakeEnvRun (env : String → Option String) (ld_lib_path bin_path : String)
    (shellOk : Bool) : (String → Option String) × Bool :=
  let env1 := envSet env "LD_LIBRARY_PATH" ld_lib_path
  match env1 "PATH" with
  | none => (env1, false)
  | some pre =>
    let env2 := envSet env1 "PATH" bin_path
    if shellOk then
      let env3 := envDel env2 "LD_LIBRARY_PATH"
      (envSet env3 "PATH" pre, true)
    else (env2, false)

/-! ### Ordering invariant of the emission stream

`OrderedFrom P pre l` says: for every occurrence of `q` in `l` and every
`d` with `P q d`, an occurrence of `d` appears earlier — in the already
emitted part `pre` or in the part of `l` before that occurrence. -/

/-- Every occurrence in `l` is preceded (within `pre ++ l`) by all its
`P`-successors. -/
def OrderedFrom (P : String → String → Prop) (pre l : List String) : Prop :=
  ∀ L₁ q L₂, l = L₁ ++ q :: L₂ → ∀ d, P q d → d ∈ pre ++ L₁

/-! ### The `download` strategy (lines 162–206)

The HTTP response is a parameter (status code and body chunks, as
`requests.iter_content` yields them); `hashlib.sha256(...).hexdigest()`
over a byte sequence is an abstract function parameter, applied to the
concatenation of all streamed chunks (the incremental `update` calls of
lines 192–194 hash exactly that concatenation). -/

/-- Outcomes of `download`, in source order of the raise sites.
`requestsUrlError` is the `ValueError` subclass (`MissingSchema`,
`InvalidURL` or `InvalidSchema`) that `session.get` raises during URL
preparation — before any network I/O — when the URL is not a
well-formed `http(s)://host...` URL. -/
inductive DlResult where
  | protocolError
  | hashSplitError
  | hashTypeError
  | requestsUrlError
  | httpError (code : Nat)
  | integrityError
  | success
  deriving Repr, DecidableEq

/-- The errors of `download` that are raised before any network
activity (all of them `ValueError`s about the configuration). -/
def DlResult.isPreNetworkError : DlResult → Bool
  | .protocolError => true
  | .hashSplitError => true
  | .hashTypeError => true
  | .requestsUrlError => true
  | _ => false

/-- What one `download` invocation did: its result, whether the HTTP
request was issued, whether the destination file was written, and
whether the executable bits were added. -/
structure DlOutcome where
  result : DlResult
  networkCalled : Bool
  fileWritten : Bool
  execBitsAdded : Bool
  deriving Repr, DecidableEq

/-- Python `str.startswith`, at the character level (Lean's
`String.startsWith` is byte-position based and does not reduce in the
kernel; prefix-of on the character lists is the same function). -/
def strStartsWith (s pre : String) : Bool :=
  pre.data.isPrefixOf s.data

/-- Splitting a character list on a separator character, Python
`str.split(sep)` style: `n` separators yield `n + 1` (possibly empty)
parts. -/
def splitCharAux (c : Char) : List Char → List Char → List (List Char)
  | [], acc => [acc.reverse]
  | x :: xs, acc =>
    if x = c then acc.reverse :: splitCharAux c xs []
    else splitCharAux c xs (x :: acc)

/-- Python `s.split(sep)` for a one-character separator. -/
def splitOnChar (c : Char) (s : String) : List String :=
  (splitCharAux c s.data []).map String.mk

/-- `hash_type, hash_value = hash_str.split(":")` — a `ValueError` when
the split does not yield exactly two parts. -/
def splitHashStr (s : String) : Option (String × String) :=
  match splitOnChar ':' s with
  | [a, b] => some (a, b)
  | _ => none

/-- `pathlib.Path(s).parts`, up to the leading root component (which is
never the name `"bin"`): the non-empty `/`-separated components. -/
def pathParts (s : String) : List String :=
  (splitOnChar '/' s).filter (fun c => c ≠ "")

/-- `pathlib` path joining (`fakeprefix / destination`): an absolute
right operand replaces the left operand. -/
def joinPath (base rel : String) : String :=
  if strStartsWith rel "/" then rel else base ++ "/" ++ rel

/-- Modelled from `requests`' URL preparation
(`PreparedRequest.prepare_url` and `Session.get_adapter`): `session.get`
accepts the URL — and only then performs network I/O — exactly when it
has scheme `http://` or `https://` followed by a nonempty host
component; otherwise it raises `MissingSchema` (no scheme),
`InvalidURL` (no host) or `InvalidSchema` (no mounted adapter), all
`ValueError` subclasses, strictly before any network activity. -/
def requestsUrlOk (url : String) : Bool :=
  if strStartsWith url "https://" then
    !((url.data.drop 8).takeWhile (fun c => c ≠ '/')).isEmpty
  else if strStartsWith url "http://" then
    !((url.data.drop 7).takeWhile (fun c => c ≠ '/')).isEmpty
  else false

/-- The `download` strategy: the strategy's own https-prefix check,
hash-string parsing and algorithm check, then `session.get` — which
either rejects a malformed URL before any network I/O
(`requestsUrlOk`) or performs the request — then the streaming write
plus digest, digest comparison, and the executable-bit chmod when
`"bin"` occurs among the destination path's components. -/
def download (url hash_str fakeroot pfx destination : String)
    (status : Nat) (chunks : List (List Nat)) (sha256hex : List Nat → String) : DlOutcome :=
  if ¬ strStartsWith url "https" then
    ⟨.protocolError, false, false, false⟩
  else
    match splitHashStr hash_str with
    | none => ⟨.hashSplitError, false, false, false⟩
    | some (hash_type, hash_value) =>
      if hash_type ≠ "sha256" then ⟨.hashTypeError, false, false, false⟩
      else
        let dest_path := joinPath (fakeroot ++ pfx) destination
        if ¬ requestsUrlOk url then ⟨.requestsUrlError, false, false, false⟩
        else if status ≠ 200 then ⟨.httpError status, true, false, false⟩
        else if sha256hex chunks.flatten ≠ hash_value then ⟨.integrityError, true, true, false⟩
        else if "bin" ∈ pathParts dest_path then ⟨.success, true, true, true⟩
        else ⟨.success, true, true, false⟩

/-! ### Concrete requested sets and repositories used as test inputs -/

/-- A process environment with both variables set, for exercising the
`cmake` strategy's environment handling. -/
def envDemo : String → Option String := fun k =>
  if k = "LD_LIBRARY_PATH" then some "orig" else if k = "PATH" then some "p0" else none

/-- Requested set with a single package `a` at version `1`. -/
def cyclePkgs : List (String × String) := [("a", "1")]

/-- Repository where `a` (version `1`) depends on itself. -/
def cycleRepo : Repo := fun p v =>
  if p = "a" ∧ v = "1" then some { make := "noop", depends := some ["a"] } else none

/-- Requested set `p1`, then `p2`. -/
def twoPkgs : List (String × String) := [("p1", "1"), ("p2", "1")]

/-- Repository where `p1` is a valid rsync package and `p2` carries the
`pypi_package_name` field with a non-pip build method (invalid). -/
def lateInvalidRepo : Repo := fun p v =>
  if p = "p1" ∧ v = "1" then some { make := "rsync" }
  else if p = "p2" ∧ v = "1" then some { make := "noop", pypi_package_name := some "x" }
  else none

/-- Requested set `a`, `b` with a linear dependency `a → b`. -/
def chainPkgs : List (String × String) := [("a", "1"), ("b", "2")]

/-- Repository: `a` (version `1`) depends on `b`; `b` (version `2`) has
no dependencies. -/
def chainRepo : Repo := fun p v =>
  if p = "a" ∧ v = "1" then some { make := "noop", depends := some ["b"] }
  else if p = "b" ∧ v = "2" then some { make := "noop" }
  else none

/-- A rank function witnessing acyclicity of `chainRepo`. -/
def chainRank : String → Nat := fun p => if p = "a" then 1 else 0

/-- Repository where `a` (version `1`) depends on `x`, which is not in
any requested set used with it. -/
def missingDepRepo : Repo := fun p v =>
  if p = "a" ∧ v = "1" then some { make := "noop", depends := some ["x"] } else none

/-- Repository where `a` (version `1`) depends on `b`, but `b` has no
repository entry at all (in particular none at `b`'s requested
version `2` of `chainPkgs`). -/
def gapRepo : Repo := fun p v =>
  if p = "a" ∧ v = "1" then some { make := "noop", depends := some ["b"] } else none

/-- A digest function for concrete download runs: the byte stream
`[1, 2]` hashes to `"good"`, everything else to `"bad"`. -/
def shaDemo : List Nat → String := fun l => if l = [1, 2] then "good" else "bad"

/-- Requested set `w1`, `w2`, `w3`. -/
def badFieldsPkgs : List (String × String) := [("w1", "1"), ("w2", "1"), ("w3", "1")]

/-- Repository exhibiting the three metadata-validation failures:
`w1` declares a download-only field with `make: pip`, `w2` uses
`make: download` with only one of the three required fields, and `w3`
carries `pypi_package_name` with a non-pip method. -/
def badFieldsRepo : Repo := fun p v =>
  if p = "w1" ∧ v = "1" then some { make := "pip", url := some "https://u" }
  else if p = "w2" ∧ v = "1" then some { make := "download", url := some "https://u" }
  else if p = "w3" ∧ v = "1" then some { make := "noop", pypi_package_name := some "x" }
  else none

/-! ## C3: environment restoration by the `cmake` strategy -/

/-- C3 counterexample: the claim that the two temporarily set
environment variables are restored to their exact prior value (or
absence) on every exit path is false.  With `LD_LIBRARY_PATH`
previously `"orig"` and `PATH` previously `"p0"`, a *successful*
invocation leaves `LD_LIBRARY_PATH` absent (the source deletes it
instead of restoring it), and a *failing* invocation leaves both
variables holding the overridden values. -/
theorem cmake_env_restore_counterexample :
    envDemo "LD_LIBRARY_PATH" = some "orig" ∧ envDemo "PATH" = some "p0" ∧
    ((cmakeEnvRun envDemo "L" "B" true).1) "LD_LIBRARY_PATH" = none ∧
    ((cmakeEnvRun envDemo "L" "B" false).1) "LD_LIBRARY_PATH" = some "L" ∧
    ((cmakeEnvRun envDemo "L" "B" false).1) "PATH" = some "B" := by
  refine ⟨rfl, rfl, rfl, rfl, rfl⟩

/-- C3 (amended): what `cmake` actually does to the environment.  On
the success path `PATH` is restored to its prior value but
`LD_LIBRARY_PATH` is unconditionally deleted; when an external build
command fails, neither variable is restored (`LD_LIBRARY_PATH` keeps
the override, `PATH` keeps `bin_path`).  Variables other than these two
are untouched on both paths. -/
theorem cmake_env_actual_behavior (env : String → Option String) (ld bin pre : String)
    (hpath : env "PATH" = some pre) :
    ((cmakeEnvRun env ld bin true).1 "PATH" = some pre ∧
      (cmakeEnvRun env ld bin true).1 "LD_LIBRARY_PATH" = none ∧
      (∀ k, k ≠ "PATH" → k ≠ "LD_LIBRARY_PATH" →
        (cmakeEnvRun env ld bin true).1 k = env k)) ∧
    ((cmakeEnvRun env ld bin false).1 "PATH" = some bin ∧
      (cmakeEnvRun env ld bin false).1 "LD_LIBRARY_PATH" = some ld ∧
      (∀ k, k ≠ "PATH" → k ≠ "LD_LIBRARY_PATH" →
        (cmakeEnvRun env ld bin false).1 k = env k)) := by
  constructor
  · refine ⟨?_, ?_, ?_⟩
    · simp [cmakeEnvRun, envSet, envDel, hpath]
    · simp [cmakeEnvRun, envSet, envDel, hpath]
    · intro k hk1 hk2
      simp [cmakeEnvRun, envSet, envDel, hpath, hk1, hk2]
  · refine ⟨?_, ?_, ?_⟩
    · simp [cmakeEnvRun, envSet, hpath]
    · simp [cmakeEnvRun, envSet, hpath]
    · intro k hk1 hk2
      simp [cmakeEnvRun, envSet, hpath, hk1, hk2]

/-- Witness for the amended C3 theorem at the concrete environment
`envDemo`, with the frame condition instantiated at the untouched
variable `HOME`. -/
theorem cmake_env_actual_behavior_witness :
    (cmakeEnvRun envDemo "L" "B" true).1 "PATH" = some "p0" ∧
    (cmakeEnvRun envDemo "L" "B" true).1 "LD_LIBRARY_PATH" = none ∧
    (cmakeEnvRun envDemo "L" "B" true).1 "HOME" = envDemo "HOME" ∧
    (cmakeEnvRun envDemo "L" "B" false).1 "PATH" = some "B" ∧
    (cmakeEnvRun envDemo "L" "B" false).1 "LD_LIBRARY_PATH" = some "L" ∧
    (cmakeEnvRun envDemo "L" "B" false).1 "HOME" = envDemo "HOME" := by
  obtain ⟨⟨h1, h2, h3⟩, h4, h5, h6⟩ := cmake_env_actual_behavior envDemo "L" "B" "p0" rfl
  exact ⟨h1, h2, h3 "HOME" (by decide) (by decide), h4, h5,
    h6 "HOME" (by decide) (by decide)⟩

/-! ## C5: pre-network checks of the `download` strategy -/

/-- A string that begins with `"https"` cannot begin with `"http://"`
(the fifth character is `s`, not `/`). -/
theorem http_slash_prefix_false {url : String}
    (h : strStartsWith url "https" = true) :
    strStartsWith url "http://" = false := by
  unfold strStartsWith at h ⊢
  rw [List.isPrefixOf_iff_prefix] at h
  rw [show ("https" : String).data = ['h', 't', 't', 'p', 's'] from rfl] at h
  by_contra hc
  rw [Bool.not_eq_false, List.isPrefixOf_iff_prefix,
    show ("http://" : String).data = ['h', 't', 't', 'p', ':', '/', '/'] from rfl] at hc
  exact absurd (List.prefix_of_prefix_length_le h hc (by decide)) (by decide)

/-- C5: when the URL does not begin with the `https://` scheme or the
declared digest algorithm is not `sha256`, the strategy fails before
any network activity (and before any file is written) with a
`ValueError` about the configuration.  The strategy's own check only
tests the prefix `"https"` (line 165), but every URL that passes it
without being a real `https://host` URL is then rejected by
`session.get` during URL preparation, still before any network I/O. -/
theorem download_pre_network_checks (url hash_str fakeroot pfx destination : String)
    (status : Nat) (chunks : List (List Nat)) (sha256hex : List Nat → String)
    (h : strStartsWith url "https://" = false ∨
      ∃ ht hv, splitHashStr hash_str = some (ht, hv) ∧ ht ≠ "sha256") :
    (download url hash_str fakeroot pfx destination status chunks
        sha256hex).networkCalled = false ∧
    (download url hash_str fakeroot pfx destination status chunks
        sha256hex).fileWritten = false ∧
    (download url hash_str fakeroot pfx destination status chunks
        sha256hex).result.isPreNetworkError = true := by
  by_cases hurl : strStartsWith url "https"
  · rcases hsplit : splitHashStr hash_str with _ | ⟨ht, hv⟩
    · simp [download, hurl, hsplit, DlResult.isPreNetworkError]
    · by_cases hty : ht = "sha256"
      · subst hty
        have hurl2 : strStartsWith url "https://" = false := by
          rcases h with h | ⟨ht2, hv2, hsp, hne⟩
          · exact h
          · rw [hsplit] at hsp
            injection hsp with hsp
            injection hsp with hsp1 hsp2
            exact absurd hsp1.symm hne
        have hprep : requestsUrlOk url = false := by
          simp [requestsUrlOk, hurl2, http_slash_prefix_false hurl]
        simp [download, hurl, hsplit, hprep, DlResult.isPreNetworkError]
      · simp [download, hurl, hsplit, hty, DlResult.isPreNetworkError]
  · simp [download, hurl, DlResult.isPreNetworkError]

/-- Witness for C5: the scheme-less URL `httpsevil.com/f` (which passes
the strategy's weak `"https"` prefix check) and an `md5` digest
declaration are each rejected with no network activity and no file
written. -/
theorem download_pre_network_checks_witness :
    ((download "httpsevil.com/f" "sha256:aa" "f" "/p" "d" 200 [] shaDemo).networkCalled
        = false ∧
      (download "httpsevil.com/f" "sha256:aa" "f" "/p" "d" 200 [] shaDemo).fileWritten
        = false ∧
      (download "httpsevil.com/f" "sha256:aa" "f" "/p" "d" 200 []
          shaDemo).result.isPreNetworkError = true) ∧
    ((download "https://x" "md5:aa" "f" "/p" "d" 200 [] shaDemo).networkCalled = false ∧
      (download "https://x" "md5:aa" "f" "/p" "d" 200 [] shaDemo).fileWritten = false ∧
      (download "https://x" "md5:aa" "f" "/p" "d" 200 []
          shaDemo).result.isPreNetworkError = true) :=
  ⟨download_pre_network_checks "httpsevil.com/f" "sha256:aa" "f" "/p" "d" 200 [] shaDemo
      (Or.inl (by decide)),
   download_pre_network_checks "https://x" "md5:aa" "f" "/p" "d" 200 [] shaDemo
      (Or.inr ⟨"md5", "aa", by decide, by decide⟩)⟩

/-! ## C6: digest verification over the full byte stream -/

/-- C6: when the pre-checks pass and the HTTP status is 200, the digest
is computed over the concatenation of all streamed chunks; the strategy
fails with the integrity error exactly when that digest differs from
the declared value (any difference, down to one character, is a string
inequality) and succeeds exactly when they are equal. -/
theorem download_digest_check (url hash_str fakeroot pfx destination hv : String)
    (chunks : List (List Nat)) (sha256hex : List Nat → String)
    (hurl : strStartsWith url "https" = true)
    (hprep : requestsUrlOk url = true)
    (hsplit : splitHashStr hash_str = some ("sha256", hv)) :
    ((download url hash_str fakeroot pfx destination 200 chunks sha256hex).result =
        .integrityError ↔ sha256hex chunks.flatten ≠ hv) ∧
    ((download url hash_str fakeroot pfx destination 200 chunks sha256hex).result =
        .success ↔ sha256hex chunks.flatten = hv) := by
  by_cases hdig : sha256hex chunks.flatten = hv
  · constructor
    · simp only [download, hurl, hsplit]
      simp [hprep, hdig]
      by_cases hbin : "bin" ∈ pathParts (joinPath (fakeroot ++ pfx) destination) <;>
        simp [hbin]
    · simp only [download, hurl, hsplit]
      simp [hprep, hdig]
      by_cases hbin : "bin" ∈ pathParts (joinPath (fakeroot ++ pfx) destination) <;>
        simp [hbin]
  · constructor
    · simp only [download, hurl, hsplit]
      simp [hprep, hdig]
    · simp only [download, hurl, hsplit]
      simp [hprep, hdig]

/-- Witness for C6: with the stream `[1] ++ [2]` hashing to `"good"`, a
declared value `"good"` succeeds and a declared value `"bad0"` (one
character off) fails with the integrity error. -/
theorem download_digest_check_witness :
    (download "https://x" "sha256:good" "f" "/p" "d" 200 [[1], [2]] shaDemo).result =
      .success ∧
    (download "https://x" "sha256:bad0" "f" "/p" "d" 200 [[1], [2]] shaDemo).result =
      .integrityError :=
  ⟨(download_digest_check "https://x" "sha256:good" "f" "/p" "d" "good" [[1], [2]] shaDemo
      (by decide) (by decide) (by decide)).2.mpr (by decide),
   (download_digest_check "https://x" "sha256:bad0" "f" "/p" "d" "bad0" [[1], [2]] shaDemo
      (by decide) (by decide) (by decide)).1.mpr (by decide)⟩

/-! ## C7: the executable-bit condition -/

/-- C7 counterexample: the claim that the executable bits are added iff
the destination path's *final directory component* is `bin` is false.
For destination `bin/sub/tool` under staging root `f/p`, the final
directory component is `sub`, yet the bits are added, because the
source tests `"bin" in dest_path.parts` — membership anywhere in the
path. -/
theorem download_exec_bit_counterexample :
    (download "https://x" "sha256:good" "f" "/p" "bin/sub/tool" 200 [[1], [2]]
        shaDemo).result = .success ∧
    (download "https://x" "sha256:good" "f" "/p" "bin/sub/tool" 200 [[1], [2]]
        shaDemo).execBitsAdded = true ∧
    (pathParts (joinPath ("f" ++ "/p") "bin/sub/tool")).dropLast.getLast? = some "sub" ∧
    "sub" ≠ "bin" := by
  refine ⟨by decide, by decide, by decide, by decide⟩

/-- C7 (amended): on success the executable bits are added iff `"bin"`
occurs among the components of the full destination path
(`fakeroot + prefix` joined with the destination) — any component, not
only the final directory component. -/
theorem download_exec_bit_any_bin_component (url hash_str fakeroot pfx destination : String)
    (status : Nat) (chunks : List (List Nat)) (sha256hex : List Nat → String)
    (h : (download url hash_str fakeroot pfx destination status chunks sha256hex).result =
      .success) :
    ((download url hash_str fakeroot pfx destination status chunks sha256hex).execBitsAdded
        = true)
      ↔ "bin" ∈ pathParts (joinPath (fakeroot ++ pfx) destination) := by
  by_cases hurl : strStartsWith url "https"
  · match hsplit : splitHashStr hash_str with
    | none => simp [download, hurl, hsplit] at h
    | some (ht, hv) =>
      by_cases hty : ht = "sha256"
      · subst hty
        by_cases hprep : requestsUrlOk url = true
        · by_cases hst : status = 200
          · subst hst
            by_cases hdig : sha256hex chunks.flatten = hv
            · by_cases hbin :
                  "bin" ∈ pathParts (joinPath (fakeroot ++ pfx) destination) <;>
                simp [download, hurl, hsplit, hprep, hdig, hbin]
            · simp [download, hurl, hsplit, hprep, hdig] at h
          · simp [download, hurl, hsplit, hprep, hst] at h
        · simp [download, hurl, hsplit, hprep] at h
      · simp [download, hurl, hsplit, hty] at h
  · simp [download, hurl] at h

/-- Witness for the amended C7 theorem: a destination under a `bin`
directory gets the bits, one under `share` does not. -/
theorem download_exec_bit_any_bin_component_witness :
    ((download "https://x" "sha256:good" "f" "/p" "bin/tool" 200 [[1], [2]]
        shaDemo).execBitsAdded = true) ∧
    ¬ ((download "https://x" "sha256:good" "f" "/p" "share/tool" 200 [[1], [2]]
        shaDemo).execBitsAdded = true) :=
  ⟨(download_exec_bit_any_bin_component "https://x" "sha256:good" "f" "/p" "bin/tool" 200
      [[1], [2]] shaDemo (by decide)).mpr (by decide),
   fun hc =>
    (by decide :
        ¬ "bin" ∈ pathParts (joinPath ("f" ++ "/p") "share/tool"))
      ((download_exec_bit_any_bin_component "https://x" "sha256:good" "f" "/p" "share/tool"
          200 [[1], [2]] shaDemo (by decide)).mp hc)⟩

/-! ## Unfolding equations for the fuelled resolver -/

/-- One-step unfolding of `dfs` at successor fuel. -/
theorem dfs_succ (fuel : Nat) (p v : String) (pkgs : List (String × String)) (repo : Repo) :
    dfs (fuel + 1) p v pkgs repo =
      match repo p v with
      | none => .keyError
      | some meta =>
        match meta.depends with
        | none => .ok [p]
        | some deps =>
          if deps.all (fun d => (lookupStr pkgs d).isSome) then
            match depsFold pkgs (fun d vd => dfs fuel d vd pkgs repo) deps with
            | .ok ls => .ok (ls ++ [p])
            | r => r
          else .exitError deps := by
  conv_lhs => rw [dfs]

/-! ## C10: repository gaps crash the resolver with `KeyError` -/

/-- C10: when a declared dependency `d` of a requested package passes
the resolver's presence check (all declared dependencies are keys of
the requested set) but the repository has no entry for `d` at its
requested version, `dfs` fails with the uncaught `KeyError` — not with
the diagnostic missing-dependency exit — because the presence check of
line 29 consults only the requested set, never the repository. -/
theorem dfs_repo_gap_keyerror (fuel : Nat) (pkgs : List (String × String)) (repo : Repo)
    (p v vd d : String) (meta : PkgMeta) (rest : List String)
    (hmeta : repo p v = some meta)
    (hdeps : meta.depends = some (d :: rest))
    (hall : ∀ x ∈ d :: rest, (lookupStr pkgs x).isSome)
    (hd : lookupStr pkgs d = some vd)
    (hgap : repo d vd = none) :
    dfs (fuel + 2) p v pkgs repo = .keyError := by
  have hcheck : (d :: rest).all (fun x => (lookupStr pkgs x).isSome) = true :=
    List.all_eq_true.mpr hall
  have hinner : dfs (fuel + 1) d vd pkgs repo = .keyError := by
    rw [dfs_succ, hgap]
  rw [show fuel + 2 = (fuel + 1) + 1 from rfl, dfs_succ]
  simp only [hmeta, hdeps, hcheck, eq_self_iff_true, if_true, depsFold, hd, hinner]

/-- Witness for C10: requesting `a` and `b` where `a` depends on `b`
and the repository lacks any entry for `b` crashes with `KeyError`. -/
theorem dfs_repo_gap_keyerror_witness :
    dfs 3 "a" "1" chainPkgs gapRepo = .keyError :=
  dfs_repo_gap_keyerror 1 chainPkgs gapRepo "a" "1" "2" "b" { make := "noop", depends := some ["b"] }
    [] (by decide) rfl (by decide) (by decide) (by decide)

/-! ## Association-list lookup lemmas -/

theorem lookupStr_mem {pkgs : List (String × String)} {p v : String}
    (h : lookupStr pkgs p = some v) : (p, v) ∈ pkgs := by
  induction pkgs with
  | nil => simp [lookupStr] at h
  | cons kv rest ih =>
    obtain ⟨k, w⟩ := kv
    simp only [lookupStr] at h
    by_cases hk : k = p
    · rw [if_pos hk] at h
      injection h with h
      subst hk; subst h
      exact List.mem_cons_self _ _
    · rw [if_neg hk] at h
      exact List.mem_cons_of_mem _ (ih h)

theorem lookupStr_of_mem_nodup {pkgs : List (String × String)}
    (hnd : (pkgs.map Prod.fst).Nodup) {p v : String}
    (h : (p, v) ∈ pkgs) : lookupStr pkgs p = some v := by
  induction pkgs with
  | nil => simp at h
  | cons kv rest ih =>
    obtain ⟨k, w⟩ := kv
    simp only [List.map_cons, List.nodup_cons] at hnd
    rcases List.mem_cons.mp h with heq | hmem
    · injection heq with h1 h2
      subst h1; subst h2
      simp [lookupStr]
    · by_cases hk : k = p
      · subst hk
        exact absurd (List.mem_map_of_mem Prod.fst hmem) hnd.1
      · simp only [lookupStr, if_neg hk]
        exact ih hnd.2 hmem

/-! ## Ordering-invariant lemmas -/

theorem orderedFrom_nil (P : String → String → Prop) (pre : List String) :
    OrderedFrom P pre [] := by
  intro L₁ q L₂ h
  cases L₁ <;> simp_all

theorem orderedFrom_cons (P : String → String → Prop) (pre : List String) (x : String)
    (l : List String) :
    OrderedFrom P pre (x :: l) ↔
      (∀ d, P x d → d ∈ pre) ∧ OrderedFrom P (pre ++ [x]) l := by
  constructor
  · intro h
    refine ⟨fun d hd => ?_, fun L₁ q L₂ hl d hd => ?_⟩
    · simpa using h [] x l rfl d hd
    · simpa [List.append_assoc] using h (x :: L₁) q L₂ (by rw [hl, List.cons_append]) d hd
  · rintro ⟨h1, h2⟩ L₁ q L₂ hl d hd
    cases L₁ with
    | nil =>
      simp only [List.nil_append] at hl
      injection hl with hq hl
      subst hq
      simpa using h1 d hd
    | cons y L₁ =>
      rw [List.cons_append] at hl
      injection hl with hy hl
      subst hy
      simpa [List.append_assoc] using h2 L₁ q L₂ hl d hd

theorem orderedFrom_append {P : String → String → Prop} {pre : List String}
    {a b : List String}
    (ha : OrderedFrom P pre a) (hb : OrderedFrom P (pre ++ a) b) :
    OrderedFrom P pre (a ++ b) := by
  induction a generalizing pre with
  | nil => simpa using hb
  | cons x a ih =>
    rw [List.cons_append, orderedFrom_cons]
    rw [orderedFrom_cons] at ha
    refine ⟨ha.1, ih ha.2 ?_⟩
    simpa [List.append_assoc] using hb

theorem orderedFrom_singleton {P : String → String → Prop} {pre : List String} {p : String}
    (h : ∀ d, P p d → d ∈ pre) : OrderedFrom P pre [p] := by
  rw [show [p] = p :: ([] : List String) from rfl, orderedFrom_cons]
  exact ⟨h, orderedFrom_nil _ _⟩

/-! ## First-seen deduplication lemmas -/

theorem mem_dedupAux {x : String} : ∀ {seen l : List String},
    x ∈ dedupAux seen l ↔ x ∈ l ∧ x ∉ seen := by
  intro seen l
  induction l generalizing seen with
  | nil => simp [dedupAux]
  | cons y l ih =>
    simp only [dedupAux]
    by_cases hy : y ∈ seen
    · rw [if_pos hy, ih]
      by_cases hxy : x = y
      · subst hxy; simp [hy]
      · simp [hxy]
    · rw [if_neg hy]
      by_cases hxy : x = y
      · subst hxy; simp [hy]
      · simp [hxy, ih]

theorem nodup_dedupAux : ∀ (seen l : List String), (dedupAux seen l).Nodup := by
  intro seen l
  induction l generalizing seen with
  | nil => simp [dedupAux]
  | cons y l ih =>
    simp only [dedupAux]
    by_cases hy : y ∈ seen
    · rw [if_pos hy]; exact ih seen
    · rw [if_neg hy]
      refine List.nodup_cons.mpr ⟨?_, ih (y :: seen)⟩
      rw [mem_dedupAux]
      rintro ⟨-, h2⟩
      exact h2 (List.mem_cons_self _ _)

theorem dedupAux_indexOf_lt {a b : String} : ∀ {seen l : List String},
    a ∈ l → b ∈ l → a ∉ seen → b ∉ seen → a ≠ b →
    List.indexOf a l < List.indexOf b l →
    List.indexOf a (dedupAux seen l) < List.indexOf b (dedupAux seen l) := by
  intro seen l
  induction l generalizing seen with
  | nil => intro h; simp at h
  | cons y l ih =>
    intro ha hb has hbs hab hidx
    simp only [dedupAux]
    by_cases hya : y = a
    · subst hya
      rw [if_neg has]
      have hb' : b ∈ l :=
        (List.mem_cons.mp hb).resolve_left (fun h => hab h.symm)
      rw [List.indexOf_cons_self, List.indexOf_cons_ne _ hab]
      omega
    · by_cases hyb : y = b
      · subst hyb
        rw [List.indexOf_cons_ne _ hya, List.indexOf_cons_self] at hidx
        omega
      · have ha' : a ∈ l := (List.mem_cons.mp ha).resolve_left (fun h => hya h.symm)
        have hb' : b ∈ l := (List.mem_cons.mp hb).resolve_left (fun h => hyb h.symm)
        have hidx' : List.indexOf a l < List.indexOf b l := by
          rw [List.indexOf_cons_ne _ hya, List.indexOf_cons_ne _ hyb] at hidx
          omega
        by_cases hy : y ∈ seen
        · rw [if_pos hy]
          exact ih ha' hb' has hbs hab hidx'
        · rw [if_neg hy]
          have has' : a ∉ y :: seen := by
            intro hmem
            rcases List.mem_cons.mp hmem with h | h
            · exact hya h.symm
            · exact has h
          have hbs' : b ∉ y :: seen := by
            intro hmem
            rcases List.mem_cons.mp hmem with h | h
            · exact hyb h.symm
            · exact hbs h
          have := ih ha' hb' has' hbs' hab hidx'
          rw [List.indexOf_cons_ne _ hya, List.indexOf_cons_ne _ hyb]
          omega

theorem indexOf_lt_of_preceded {d q : String} : ∀ {E : List String},
    (∀ L₁ L₂, E = L₁ ++ q :: L₂ → d ∈ L₁) → q ∈ E → d ≠ q →
    d ∈ E ∧ List.indexOf d E < List.indexOf q E := by
  intro E
  induction E with
  | nil => intro _ h; simp at h
  | cons x l ih =>
    intro hpre hq hdq
    by_cases hxq : x = q
    · subst hxq
      exact absurd (hpre [] l rfl) (List.not_mem_nil d)
    · have hq' : q ∈ l := (List.mem_cons.mp hq).resolve_left (fun h => hxq h.symm)
      by_cases hxd : x = d
      · subst hxd
        refine ⟨List.mem_cons_self _ _, ?_⟩
        rw [List.indexOf_cons_self, List.indexOf_cons_ne _ hdq]
        omega
      · have hpre' : ∀ L₁ L₂, l = L₁ ++ q :: L₂ → d ∈ L₁ := by
          intro L₁ L₂ hl
          have := hpre (x :: L₁) L₂ (by rw [hl, List.cons_append])
          exact (List.mem_cons.mp this).resolve_left (fun h => hxd h.symm)
        obtain ⟨hd, hlt⟩ := ih hpre' hq' hdq
        refine ⟨List.mem_cons_of_mem _ hd, ?_⟩
        rw [List.indexOf_cons_ne _ hxd, List.indexOf_cons_ne _ hxq]
        omega

/-! ## Per-entry validation lemmas (shared by the C8 and C4 theorems) -/

/-- An entry whose metadata violates one of the three field-consistency
checks of lines 306–318 produces no events and stops with the
corresponding `ValueError`. -/
theorem processEntry_invalid_meta (pkgs : List (String × String)) (repo : Repo)
    (p vp : String) (cur : PkgMeta)
    (hlook : lookupStr pkgs p = some vp) (hcur : repo p vp = some cur) :
    ((hasDownloadKey cur = true ∧ cur.make ≠ "download") →
      processEntry pkgs repo p = ([], some .downloadFieldsOnlyWithDownload)) ∧
    ((allDownloadKeys cur = false ∧ cur.make = "download") →
      processEntry pkgs repo p = ([], some .downloadFieldsAllRequired)) ∧
    ((cur.pypi_package_name.isSome = true ∧ cur.make ≠ "pip") →
      ∃ e, processEntry pkgs repo p = ([], some e)) := by
  refine ⟨fun h => ?_, fun h => ?_, fun h => ?_⟩
  · simp only [processEntry, hlook, hcur]
    rw [if_pos h]
  · have h1 : ¬ (hasDownloadKey cur = true ∧ cur.make ≠ "download") := by
      rintro ⟨-, hne⟩; exact hne h.2
    have h2 : (¬ allDownloadKeys cur = true) ∧ cur.make = "download" :=
      ⟨by simp [h.1], h.2⟩
    simp only [processEntry, hlook, hcur]
    rw [if_neg h1, if_pos h2]
  · by_cases h1 : hasDownloadKey cur = true ∧ cur.make ≠ "download"
    · exact ⟨_, by simp only [processEntry, hlook, hcur]; rw [if_pos h1]⟩
    · by_cases h2 : (¬ allDownloadKeys cur = true) ∧ cur.make = "download"
      · exact ⟨_, by simp only [processEntry, hlook, hcur]; rw [if_neg h1, if_pos h2]⟩
      · refine ⟨MakeErr.pypiNameOnlyWithPip, ?_⟩
        simp only [processEntry, hlook, hcur]
        rw [if_neg h1, if_neg h2, if_pos h]

set_option maxHeartbeats 1600000 in
/-- Every dispatch event produced by processing plan entry `q` carries
`q` as its entry name. -/
theorem processEntry_dispatch_entry (pkgs : List (String × String)) (repo : Repo)
    (q m r eff : String)
    (h : Ev.dispatch m r eff ∈ (processEntry pkgs repo q).1) : r = q := by
  rcases hl : lookupStr pkgs q with _ | ver
  · simp [processEntry, hl] at h
  · rcases hc : repo q ver with _ | cur
    · simp [processEntry, hl, hc] at h
    · simp only [processEntry, hl, hc] at h
      split_ifs at h <;> simp_all

/-- Processing a run of error-free entries accumulates their events and
continues with the rest of the plan. -/
theorem makeLoop_ok_append (pkgs : List (String × String)) (repo : Repo)
    (l₁ rest : List String)
    (hok : ∀ q ∈ l₁, (processEntry pkgs repo q).2 = none) :
    makeLoop pkgs repo (l₁ ++ rest) =
      ((l₁.map fun q => (processEntry pkgs repo q).1).flatten ++ (makeLoop pkgs repo rest).1,
        (makeLoop pkgs repo rest).2) := by
  induction l₁ with
  | nil => simp [makeLoop]
  | cons q l₁ ih =>
    have hrest : ∀ x ∈ l₁, (processEntry pkgs repo x).2 = none :=
      fun x hx => hok x (List.mem_cons_of_mem _ hx)
    rcases hpe : processEntry pkgs repo q with ⟨evs, err⟩
    have hq := hok q (List.mem_cons_self _ _)
    rw [hpe] at hq
    cases err with
    | some e => simp at hq
    | none =>
      have hstep : makeLoop pkgs repo (q :: (l₁ ++ rest)) =
          (evs ++ (makeLoop pkgs repo (l₁ ++ rest)).1, (makeLoop pkgs repo (l₁ ++ rest)).2) := by
        simp only [makeLoop, hpe]
      rw [List.cons_append, hstep, ih hrest]
      simp [hpe, List.append_assoc]

/-! ## C8: field validation happens per entry, before that entry's dispatch -/

/-- C8: a plan entry declaring any of `url`/`hash`/`destination` with a
build method other than `download` fails validation with no strategy
invoked; an entry with method `download` missing any of the three
fields likewise; and an entry carrying `pypi_package_name` with a
method other than `pip` fails (with one of the three `ValueError`s —
an earlier field check may fire first) — in all three cases the entry
produces no dispatch. -/
theorem make_field_validation_blocks_dispatch (pkgs : List (String × String)) (repo : Repo)
    (p vp : String) (cur : PkgMeta)
    (hlook : lookupStr pkgs p = some vp) (hcur : repo p vp = some cur) :
    ((hasDownloadKey cur = true ∧ cur.make ≠ "download") →
      processEntry pkgs repo p = ([], some .downloadFieldsOnlyWithDownload)) ∧
    ((allDownloadKeys cur = false ∧ cur.make = "download") →
      processEntry pkgs repo p = ([], some .downloadFieldsAllRequired)) ∧
    ((cur.pypi_package_name.isSome = true ∧ cur.make ≠ "pip") →
      ∃ e, processEntry pkgs repo p = ([], some e)) :=
  processEntry_invalid_meta pkgs repo p vp cur hlook hcur

/-- Witness for C8 on the three concrete invalid entries of
`badFieldsRepo`. -/
theorem make_field_validation_blocks_dispatch_witness :
    processEntry badFieldsPkgs badFieldsRepo "w1" =
      ([], some .downloadFieldsOnlyWithDownload) ∧
    processEntry badFieldsPkgs badFieldsRepo "w2" =
      ([], some .downloadFieldsAllRequired) ∧
    (∃ e, processEntry badFieldsPkgs badFieldsRepo "w3" = ([], some e)) :=
  ⟨(make_field_validation_blocks_dispatch badFieldsPkgs badFieldsRepo "w1" "1"
      { make := "pip", url := some "https://u" } (by decide) (by decide)).1
      ⟨by decide, by decide⟩,
   (make_field_validation_blocks_dispatch badFieldsPkgs badFieldsRepo "w2" "1"
      { make := "download", url := some "https://u" } (by decide) (by decide)).2.1
      ⟨by decide, by decide⟩,
   (make_field_validation_blocks_dispatch badFieldsPkgs badFieldsRepo "w3" "1"
      { make := "noop", pypi_package_name := some "x" } (by decide) (by decide)).2.2
      ⟨by decide, by decide⟩⟩

/-! ## C4: configuration errors are NOT all detected before side effects -/

/-- C4 counterexample: the claim that every metadata configuration
error is detected before any external side effect of the run is false.
With a valid `rsync` entry `p1` followed by an invalid entry `p2`
(alternate-name field with a non-pip method), the run creates the
staging directory and dispatches the rsync strategy for `p1` before
rejecting `p2`. -/
theorem make_early_detection_counterexample :
    makeRun 1 twoPkgs lateInvalidRepo "f" "/p" =
      ([.mkdirCmd "f/p", .dispatch "rsync" "p1" "p1"], some .pypiNameOnlyWithPip) ∧
    Ev.mkdirCmd "f/p" ∈ (makeRun 1 twoPkgs lateInvalidRepo "f" "/p").1 ∧
    Ev.dispatch "rsync" "p1" "p1" ∈ (makeRun 1 twoPkgs lateInvalidRepo "f" "/p").1 := by
  refine ⟨by decide, by decide, by decide⟩

/-- C4 (amended): validation is per entry and interleaved with
dispatch.  Each entry's three field-consistency checks do run before
that entry's own dispatch: if entry `p` of the plan is invalid (and the
entries before it are error-free), the run stops with an error and no
strategy is ever dispatched for `p` — although the staging directory
and all earlier entries' dispatches have already happened. -/
theorem make_entry_validation_precedes_dispatch
    (fuel : Nat) (pkgs : List (String × String)) (repo : Repo) (fakeroot pfx : String)
    (pkgorder l₁ l₂ : List String) (p vp : String) (cur : PkgMeta)
    (hres : resolveOrder fuel pkgs repo = .ok pkgorder)
    (horder : pkgorder = l₁ ++ p :: l₂)
    (hok : ∀ q ∈ l₁, (processEntry pkgs repo q).2 = none)
    (hnotin : p ∉ l₁)
    (hlook : lookupStr pkgs p = some vp)
    (hcur : repo p vp = some cur)
    (hbad : (hasDownloadKey cur = true ∧ cur.make ≠ "download") ∨
            (allDownloadKeys cur = false ∧ cur.make = "download") ∨
            (cur.pypi_package_name.isSome = true ∧ cur.make ≠ "pip")) :
    (makeRun fuel pkgs repo fakeroot pfx).2.isSome = true ∧
    ∀ m eff, Ev.dispatch m p eff ∉ (makeRun fuel pkgs repo fakeroot pfx).1 := by
  have hpe : ∃ e, processEntry pkgs repo p = ([], some e) := by
    rcases processEntry_invalid_meta pkgs repo p vp cur hlook hcur with ⟨h1, h2, h3⟩
    rcases hbad with hb | hb | hb
    · exact ⟨_, h1 hb⟩
    · exact ⟨_, h2 hb⟩
    · exact h3 hb
  obtain ⟨e, hpe⟩ := hpe
  have hloop : makeLoop pkgs repo pkgorder =
      ((l₁.map fun q => (processEntry pkgs repo q).1).flatten, some e) := by
    rw [horder, makeLoop_ok_append pkgs repo l₁ (p :: l₂) hok]
    have : makeLoop pkgs repo (p :: l₂) = ([], some e) := by
      simp only [makeLoop, hpe]
    rw [this]
    simp
  have hrun : makeRun fuel pkgs repo fakeroot pfx =
      (Ev.mkdirCmd (fakeroot ++ pfx) :: (l₁.map fun q => (processEntry pkgs repo q).1).flatten,
        some e) := by
    simp only [makeRun, hres, hloop]
  rw [hrun]
  refine ⟨rfl, fun m eff hmem => ?_⟩
  simp only [List.mem_cons] at hmem
  rcases hmem with hmem | hmem
  · exact Ev.noConfusion hmem
  · rw [List.mem_flatten] at hmem
    obtain ⟨l, hl, hevl⟩ := hmem
    rw [List.mem_map] at hl
    obtain ⟨q, hq, rfl⟩ := hl
    exact hnotin (processEntry_dispatch_entry pkgs repo q m p eff hevl ▸ hq)

/-! ## Resolver error lemmas

An `exitError` result always names a dependency that is missing from
the requested set, and `keyError` cannot occur when the repository has
an entry for every requested package at its requested version. -/

theorem depsFold_exitError {pkgs : List (String × String)} {f : String → String → DfsResult}
    (hf : ∀ d vd l, f d vd = .exitError l → ∃ x ∈ l, lookupStr pkgs x = none) :
    ∀ {deps l}, depsFold pkgs f deps = .exitError l →
      ∃ x ∈ l, lookupStr pkgs x = none := by
  intro deps
  induction deps with
  | nil => intro l h; simp [depsFold] at h
  | cons d rest ih =>
    intro l h
    simp only [depsFold] at h
    rcases hl : lookupStr pkgs d with _ | vd
    · simp [hl] at h
    · simp only [hl] at h
      rcases hfd : f d vd with l' | l₂ | _ | _ <;> simp only [hfd] at h
      · rcases hrest : depsFold pkgs f rest with ls | l₃ | _ | _ <;> simp only [hrest] at h
        · simp at h
        · injection h with h; subst h; exact ih hrest
        · simp at h
        · simp at h
      · injection h with h; subst h; exact hf d vd _ hfd
      · simp at h
      · simp at h

theorem dfs_exitError {pkgs : List (String × String)} {repo : Repo} :
    ∀ (fuel : Nat) {p v : String} {l : List String},
      dfs fuel p v pkgs repo = .exitError l →
      ∃ x ∈ l, lookupStr pkgs x = none := by
  intro fuel
  induction fuel with
  | zero => intro p v l h; simp [dfs] at h
  | succ fuel ih =>
    intro p v l h
    rw [dfs_succ] at h
    rcases hm : repo p v with _ | meta <;> simp only [hm] at h
    · simp at h
    · rcases hd : meta.depends with _ | deps <;> simp only [hd] at h
      · simp at h
      · by_cases hall : deps.all (fun d => (lookupStr pkgs d).isSome) = true
        · rw [if_pos hall] at h
          rcases hfold : depsFold pkgs (fun d vd => dfs fuel d vd pkgs repo) deps
            with ls | l₂ | _ | _ <;> simp only [hfold] at h
          · simp at h
          · injection h with h; subst h
            exact depsFold_exitError (fun d vd l h => ih h) hfold
          · simp at h
          · simp at h
        · rw [if_neg hall] at h
          injection h with h; subst h
          by_contra hc
          push_neg at hc
          apply hall
          rw [List.all_eq_true]
          intro x hx
          exact Option.ne_none_iff_isSome.mp (hc x hx)

theorem dfsRoots_exitError {fuel : Nat} {pkgs : List (String × String)} {repo : Repo} :
    ∀ {items : List (String × String)} {l : List String},
      dfsRoots fuel pkgs repo items = .exitError l →
      ∃ x ∈ l, lookupStr pkgs x = none := by
  intro items
  induction items with
  | nil => intro l h; simp [dfsRoots] at h
  | cons pv rest ih =>
    intro l h
    obtain ⟨p, v⟩ := pv
    simp only [dfsRoots] at h
    rcases hd : dfs fuel p v pkgs repo with l' | l₂ | _ | _ <;> simp only [hd] at h
    · rcases hr : dfsRoots fuel pkgs repo rest with ls | l₃ | _ | _ <;> simp only [hr] at h
      · simp at h
      · injection h with h; subst h; exact ih hr
      · simp at h
      · simp at h
    · injection h with h; subst h; exact dfs_exitError fuel hd
    · simp at h
    · simp at h

theorem depsFold_ne_keyError {pkgs : List (String × String)}
    (f : String → String → DfsResult)
    (hf : ∀ d vd, lookupStr pkgs d = some vd → f d vd ≠ .keyError) :
    ∀ {deps}, (∀ d ∈ deps, (lookupStr pkgs d).isSome) →
      depsFold pkgs f deps ≠ .keyError := by
  intro deps
  induction deps with
  | nil => intro _ h; simp [depsFold] at h
  | cons d rest ih =>
    intro hall h
    simp only [depsFold] at h
    rcases hl : lookupStr pkgs d with _ | vd
    · have := hall d (List.mem_cons_self _ _)
      rw [hl] at this; simp at this
    · simp only [hl] at h
      rcases hfd : f d vd with l' | _ | _ | _ <;> simp only [hfd] at h
      · rcases hr : depsFold pkgs f rest with _ | _ | _ | _ <;> simp only [hr] at h
        · simp at h
        · simp at h
        · exact ih (fun x hx => hall x (List.mem_cons_of_mem _ hx)) hr
        · simp at h
      · simp at h
      · exact hf d vd hl hfd
      · simp at h

theorem dfs_ne_keyError {pkgs : List (String × String)} {repo : Repo}
    (Hrepo : ∀ p v, lookupStr pkgs p = some v → (repo p v).isSome) :
    ∀ (fuel : Nat) {p v : String}, (repo p v).isSome →
      dfs fuel p v pkgs repo ≠ .keyError := by
  intro fuel
  induction fuel with
  | zero => intro p v _ h; simp [dfs] at h
  | succ fuel ih =>
    intro p v hpv h
    rw [dfs_succ] at h
    rcases hm : repo p v with _ | meta
    · rw [hm] at hpv; simp at hpv
    · simp only [hm] at h
      rcases hd : meta.depends with _ | deps <;> simp only [hd] at h
      · simp at h
      · by_cases hall : deps.all (fun d => (lookupStr pkgs d).isSome) = true
        · rw [if_pos hall] at h
          have hmem : ∀ d ∈ deps, (lookupStr pkgs d).isSome := List.all_eq_true.mp hall
          have hne := depsFold_ne_keyError (fun d vd => dfs fuel d vd pkgs repo)
            (fun d vd hl => ih (Hrepo d vd hl)) hmem
          rcases hfold : depsFold pkgs (fun d vd => dfs fuel d vd pkgs repo) deps
            with ls | _ | _ | _ <;> simp only [hfold] at h
          · simp at h
          · simp at h
          · exact hne hfold
          · simp at h
        · rw [if_neg hall] at h; simp at h

theorem dfs_missing_dep_not_ok {pkgs : List (String × String)} {repo : Repo}
    {p v d : String} {meta : PkgMeta} {deps : List String}
    (hmeta : repo p v = some meta) (hdeps : meta.depends = some deps)
    (hd : d ∈ deps) (hmiss : lookupStr pkgs d = none) :
    ∀ (fuel : Nat) (l : List String), dfs fuel p v pkgs repo ≠ .ok l := by
  intro fuel l h
  cases fuel with
  | zero => simp [dfs] at h
  | succ fuel =>
    rw [dfs_succ] at h
    simp only [hmeta, hdeps] at h
    have hall : ¬ (deps.all (fun x => (lookupStr pkgs x).isSome) = true) := by
      rw [List.all_eq_true]
      intro hforall
      have := hforall d hd
      rw [hmiss] at this; simp at this
    rw [if_neg hall] at h
    simp at h

/-- Witness for the amended C4 theorem on the concrete run of
`make_early_detection_counterexample`: the run errors and never
dispatches anything for the invalid entry `p2`. -/
theorem make_entry_validation_precedes_dispatch_witness :
    (makeRun 1 twoPkgs lateInvalidRepo "f" "/p").2.isSome = true ∧
    Ev.dispatch "noop" "p2" "x" ∉ (makeRun 1 twoPkgs lateInvalidRepo "f" "/p").1 := by
  have h := make_entry_validation_precedes_dispatch 1 twoPkgs lateInvalidRepo "f" "/p"
    ["p1", "p2"] ["p1"] [] "p2" "1" { make := "noop", pypi_package_name := some "x" }
    (by decide) rfl (by decide) (by decide) (by decide) (by decide)
    (Or.inr (Or.inr ⟨by decide, by decide⟩))
  exact ⟨h.1, h.2 "noop" "x"⟩

/-! ## C2: a dependency missing from the requested set is fatal -/

/-- C2: when some requested package's metadata (at its requested
version) declares a dependency absent from the requested set, the
resolution phase never produces a build plan: for every fuel it either
is still recursing (`outOfFuel`; in Python this path ends in a fatal
`RecursionError` if a cycle precedes the bad package) or takes the
`sys.exit(1)` whose message names a missing dependency — under the
sanity assumption that the repository has an entry for every requested
package at its requested version (otherwise the run dies with a
`KeyError` instead, still without returning a plan). -/
theorem resolve_missing_dep_no_plan (pkgs : List (String × String)) (repo : Repo)
    (fuel : Nat)
    (Hrepo : ∀ p v, lookupStr pkgs p = some v → (repo p v).isSome)
    (Hroot : ∀ pv ∈ pkgs, (repo pv.1 pv.2).isSome)
    (p v d : String) (meta : PkgMeta) (deps : List String)
    (hmem : (p, v) ∈ pkgs)
    (hmeta : repo p v = some meta)
    (hdeps : meta.depends = some deps)
    (hd : d ∈ deps) (hmiss : lookupStr pkgs d = none) :
    resolveOrder fuel pkgs repo = .outOfFuel ∨
      ∃ l, resolveOrder fuel pkgs repo = .exitError l ∧
        ∃ x ∈ l, lookupStr pkgs x = none := by
  have main : ∀ items : List (String × String),
      (∀ pv ∈ items, (repo pv.1 pv.2).isSome) → (p, v) ∈ items →
      dfsRoots fuel pkgs repo items = .outOfFuel ∨
        ∃ l, dfsRoots fuel pkgs repo items = .exitError l ∧
          ∃ x ∈ l, lookupStr pkgs x = none := by
    intro items
    induction items with
    | nil => intro _ h; simp at h
    | cons qw rest ih =>
      intro hsome hpv
      obtain ⟨q, w⟩ := qw
      rcases hq : dfs fuel q w pkgs repo with l' | l₂ | _ | _
      · have hmem' : (p, v) ∈ rest := by
          rcases List.mem_cons.mp hpv with heq | hm
          · injection heq with h1 h2
            subst h1; subst h2
            exact absurd hq (dfs_missing_dep_not_ok hmeta hdeps hd hmiss fuel l')
          · exact hm
        rcases ih (fun pv hpv => hsome pv (List.mem_cons_of_mem _ hpv)) hmem' with
          h | ⟨l, hl, hx⟩
        · left; simp only [dfsRoots, hq, h]
        · right; exact ⟨l, by simp only [dfsRoots, hq, hl], hx⟩
      · right
        exact ⟨l₂, by simp only [dfsRoots, hq], dfs_exitError fuel hq⟩
      · exact absurd hq (dfs_ne_keyError Hrepo fuel (hsome (q, w) (List.mem_cons_self _ _)))
      · left; simp only [dfsRoots, hq]
  rcases main pkgs Hroot hmem with h | ⟨l, hl, hx⟩
  · left
    simp only [resolveOrder, resolveEmissions, h]
  · right
    exact ⟨l, by simp only [resolveOrder, resolveEmissions, hl], hx⟩

/-- Witness for C2: requesting only `a`, whose metadata depends on the
unrequested `x`, resolution exits with the error naming `x`. -/
theorem resolve_missing_dep_no_plan_witness :
    resolveOrder 3 cyclePkgs missingDepRepo = .outOfFuel ∨
      ∃ l, resolveOrder 3 cyclePkgs missingDepRepo = .exitError l ∧
        ∃ x ∈ l, lookupStr cyclePkgs x = none := by
  refine resolve_missing_dep_no_plan cyclePkgs missingDepRepo 3 ?_ (by decide)
    "a" "1" "x" { make := "noop", depends := some ["x"] } ["x"]
    (by decide) (by decide) (by decide) (by decide) (by decide)
  intro p v h
  simp only [cyclePkgs, lookupStr] at h
  split_ifs at h with hp
  injection h with h
  subst hp; subst h
  decide

/-! ## Resolver success lemmas

On an acyclic dependency graph — witnessed by a rank function that
strictly decreases along the (version-specific) dependency relation —
`dfs` succeeds once the fuel exceeds the rank of its root, so the
Python recursion terminates. -/

theorem depsFold_ok {pkgs : List (String × String)} {f : String → String → DfsResult}
    {deps : List String}
    (h : ∀ d ∈ deps, ∃ vd, lookupStr pkgs d = some vd ∧ ∃ l, f d vd = .ok l) :
    ∃ ls, depsFold pkgs f deps = .ok ls := by
  induction deps with
  | nil => exact ⟨[], rfl⟩
  | cons d rest ih =>
    obtain ⟨vd, hvd, l, hl⟩ := h d (List.mem_cons_self _ _)
    obtain ⟨ls, hls⟩ := ih (fun x hx => h x (List.mem_cons_of_mem _ hx))
    exact ⟨l ++ ls, by simp only [depsFold, hvd, hl, hls]⟩

theorem dfs_ok_of_rank {pkgs : List (String × String)} {repo : Repo} {rank : String → Nat}
    (Hrepo : ∀ p v, lookupStr pkgs p = some v → (repo p v).isSome)
    (Hdeps : ∀ p v meta deps, lookupStr pkgs p = some v → repo p v = some meta →
      meta.depends = some deps → ∀ d ∈ deps, (lookupStr pkgs d).isSome)
    (Hrank : ∀ p d, dependsOn pkgs repo p d → rank d < rank p) :
    ∀ (fuel : Nat) (p v : String), lookupStr pkgs p = some v → rank p < fuel →
      ∃ l, dfs fuel p v pkgs repo = .ok l := by
  intro fuel
  induction fuel with
  | zero => intro p v _ h; omega
  | succ fuel ih =>
    intro p v hlook hrank
    have hpv := Hrepo p v hlook
    rcases hm : repo p v with _ | meta
    · rw [hm] at hpv; simp at hpv
    · rcases hd : meta.depends with _ | deps
      · exact ⟨[p], by rw [dfs_succ]; simp only [hm, hd]⟩
      · have hall : ∀ d ∈ deps, (lookupStr pkgs d).isSome :=
          Hdeps p v meta deps hlook hm hd
        have hallb : deps.all (fun d => (lookupStr pkgs d).isSome) = true :=
          List.all_eq_true.mpr hall
        have hfold : ∃ ls,
            depsFold pkgs (fun d vd => dfs fuel d vd pkgs repo) deps = .ok ls := by
          apply depsFold_ok
          intro d hdm
          have hsome := hall d hdm
          rcases hld : lookupStr pkgs d with _ | vd
          · rw [hld] at hsome; simp at hsome
          · refine ⟨vd, rfl, ?_⟩
            apply ih d vd hld
            have := Hrank p d ⟨v, meta, deps, hlook, hm, hd, hdm⟩
            omega
        obtain ⟨ls, hls⟩ := hfold
        refine ⟨ls ++ [p], ?_⟩
        rw [dfs_succ]
        simp only [hm, hd, hallb, eq_self_iff_true, if_true, hls]

theorem dfsRoots_ok {fuel : Nat} {pkgs : List (String × String)} {repo : Repo}
    {items : List (String × String)}
    (h : ∀ pv ∈ items, ∃ l, dfs fuel pv.1 pv.2 pkgs repo = .ok l) :
    ∃ E, dfsRoots fuel pkgs repo items = .ok E := by
  induction items with
  | nil => exact ⟨[], rfl⟩
  | cons qw rest ih =>
    obtain ⟨q, w⟩ := qw
    obtain ⟨l, hl⟩ := h (q, w) (List.mem_cons_self _ _)
    obtain ⟨E, hE⟩ := ih (fun pv hpv => h pv (List.mem_cons_of_mem _ hpv))
    exact ⟨l ++ E, by simp only [dfsRoots, hl, hE]⟩

/-- On the one-package cycle `a → a`, the traversal consumes any amount
of fuel without returning: the Python recursion never terminates. -/
theorem dfs_cycle_out_of_fuel : ∀ fuel : Nat,
    dfs fuel "a" "1" cyclePkgs cycleRepo = .outOfFuel := by
  intro fuel
  induction fuel with
  | zero => simp [dfs]
  | succ fuel ih =>
    rw [dfs_succ]
    have hm : cycleRepo "a" "1" =
        some { make := "noop", depends := some ["a"] } := by decide
    have hallb : (["a"] : List String).all
        (fun d => (lookupStr cyclePkgs d).isSome) = true := by decide
    have hlook : lookupStr cyclePkgs "a" = some "1" := by decide
    simp only [hm, hallb, eq_self_iff_true, if_true, depsFold, hlook, ih]

/-! ## Emission-structure lemmas for the build-plan theorem -/

theorem dfs_ok_self_mem {pkgs : List (String × String)} {repo : Repo} :
    ∀ {fuel : Nat} {p v : String} {l : List String},
      dfs fuel p v pkgs repo = .ok l → p ∈ l := by
  intro fuel p v l h
  cases fuel with
  | zero => simp [dfs] at h
  | succ fuel =>
    rw [dfs_succ] at h
    rcases hm : repo p v with _ | meta <;> simp only [hm] at h
    · simp at h
    · rcases hd : meta.depends with _ | deps <;> simp only [hd] at h
      · injection h with h; subst h; simp
      · by_cases hall : deps.all (fun d => (lookupStr pkgs d).isSome) = true
        · rw [if_pos hall] at h
          rcases hfold : depsFold pkgs (fun d vd => dfs fuel d vd pkgs repo) deps
            with ls | _ | _ | _ <;> simp only [hfold] at h
          · injection h with h; subst h; simp
          · simp at h
          · simp at h
          · simp at h
        · rw [if_neg hall] at h; simp at h

theorem depsFold_mem {pkgs : List (String × String)} {f : String → String → DfsResult}
    (hf : ∀ d vd l, f d vd = .ok l → d ∈ l) :
    ∀ {deps ls : List String}, depsFold pkgs f deps = .ok ls → ∀ d ∈ deps, d ∈ ls := by
  intro deps
  induction deps with
  | nil => intro ls _ d hd; simp at hd
  | cons d rest ih =>
    intro ls h x hx
    simp only [depsFold] at h
    rcases hl : lookupStr pkgs d with _ | vd
    · simp [hl] at h
    · simp only [hl] at h
      rcases hfd : f d vd with l' | _ | _ | _ <;> simp only [hfd] at h
      · rcases hrest : depsFold pkgs f rest with ls' | _ | _ | _ <;> simp only [hrest] at h
        · injection h with h; subst h
          rcases List.mem_cons.mp hx with heq | hx
          · subst heq; exact List.mem_append_left _ (hf x vd l' hfd)
          · exact List.mem_append_right _ (ih hrest x hx)
        · simp at h
        · simp at h
        · simp at h
      · simp at h
      · simp at h
      · simp at h

theorem depsFold_ordered {pkgs : List (String × String)} {repo : Repo}
    {f : String → String → DfsResult}
    (hf : ∀ d vd l, lookupStr pkgs d = some vd → f d vd = .ok l →
      ∀ pre, OrderedFrom (dependsOn pkgs repo) pre l) :
    ∀ {deps ls : List String}, depsFold pkgs f deps = .ok ls →
      ∀ pre, OrderedFrom (dependsOn pkgs repo) pre ls := by
  intro deps
  induction deps with
  | nil =>
    intro ls h pre
    simp only [depsFold] at h
    injection h with h; subst h
    exact orderedFrom_nil _ _
  | cons d rest ih =>
    intro ls h pre
    simp only [depsFold] at h
    rcases hl : lookupStr pkgs d with _ | vd
    · simp [hl] at h
    · simp only [hl] at h
      rcases hfd : f d vd with l' | _ | _ | _ <;> simp only [hfd] at h
      · rcases hrest : depsFold pkgs f rest with ls' | _ | _ | _ <;> simp only [hrest] at h
        · injection h with h; subst h
          exact orderedFrom_append (hf d vd l' hl hfd pre) (ih hrest (pre ++ l'))
        · simp at h
        · simp at h
        · simp at h
      · simp at h
      · simp at h
      · simp at h

theorem dfs_ordered {pkgs : List (String × String)} {repo : Repo} :
    ∀ (fuel : Nat) {p v : String} {l : List String}, lookupStr pkgs p = some v →
      dfs fuel p v pkgs repo = .ok l →
      ∀ pre, OrderedFrom (dependsOn pkgs repo) pre l := by
  intro fuel
  induction fuel with
  | zero => intro p v l _ h; simp [dfs] at h
  | succ fuel ih =>
    intro p v l hlook h pre
    rw [dfs_succ] at h
    rcases hm : repo p v with _ | meta <;> simp only [hm] at h
    · simp at h
    · rcases hd : meta.depends with _ | deps <;> simp only [hd] at h
      · injection h with h; subst h
        apply orderedFrom_singleton
        rintro x ⟨v', meta', deps', hlook', hm', hd', -⟩
        rw [hlook] at hlook'; injection hlook' with hv; subst hv
        rw [hm] at hm'; injection hm' with hmeq; subst hmeq
        rw [hd] at hd'; exact Option.noConfusion hd'
      · by_cases hall : deps.all (fun d => (lookupStr pkgs d).isSome) = true
        · rw [if_pos hall] at h
          rcases hfold : depsFold pkgs (fun d vd => dfs fuel d vd pkgs repo) deps
            with ls | _ | _ | _ <;> simp only [hfold] at h
          · injection h with h; subst h
            refine orderedFrom_append ?_ ?_
            · exact depsFold_ordered (fun d vd l hld hfd pre' => ih hld hfd pre') hfold pre
            · apply orderedFrom_singleton
              rintro x ⟨v', meta', deps', hlook', hm', hd', hx⟩
              rw [hlook] at hlook'; injection hlook' with hv; subst hv
              rw [hm] at hm'; injection hm' with hmeq; subst hmeq
              rw [hd] at hd'; injection hd' with hdeq; subst hdeq
              exact List.mem_append_right pre
                (depsFold_mem (fun d vd l hfd => dfs_ok_self_mem hfd) hfold x hx)
          · simp at h
          · simp at h
          · simp at h
        · rw [if_neg hall] at h; simp at h

theorem dfsRoots_ordered {fuel : Nat} {pkgs : List (String × String)} {repo : Repo}
    (Hnodup : (pkgs.map Prod.fst).Nodup) :
    ∀ {items : List (String × String)} {E : List String}, (∀ pv ∈ items, pv ∈ pkgs) →
      dfsRoots fuel pkgs repo items = .ok E →
      ∀ pre, OrderedFrom (dependsOn pkgs repo) pre E := by
  intro items
  induction items with
  | nil =>
    intro E _ h pre
    simp only [dfsRoots] at h
    injection h with h; subst h
    exact orderedFrom_nil _ _
  | cons qw rest ih =>
    intro E hsub h pre
    obtain ⟨q, w⟩ := qw
    simp only [dfsRoots] at h
    rcases hq : dfs fuel q w pkgs repo with l' | _ | _ | _ <;> simp only [hq] at h
    · rcases hr : dfsRoots fuel pkgs repo rest with ls | _ | _ | _ <;> simp only [hr] at h
      · injection h with h; subst h
        have hlookq : lookupStr pkgs q = some w :=
          lookupStr_of_mem_nodup Hnodup (hsub (q, w) (List.mem_cons_self _ _))
        exact orderedFrom_append (dfs_ordered fuel hlookq hq pre)
          (ih (fun pv hpv => hsub pv (List.mem_cons_of_mem _ hpv)) hr (pre ++ l'))
      · simp at h
      · simp at h
      · simp at h
    · simp at h
    · simp at h
    · simp at h

theorem dfsRoots_roots_mem {fuel : Nat} {pkgs : List (String × String)} {repo : Repo} :
    ∀ {items : List (String × String)} {E : List String},
      dfsRoots fuel pkgs repo items = .ok E → ∀ pv ∈ items, pv.1 ∈ E := by
  intro items
  induction items with
  | nil => intro E _ pv hpv; simp at hpv
  | cons qw rest ih =>
    intro E h pv hpv
    obtain ⟨q, w⟩ := qw
    simp only [dfsRoots] at h
    rcases hq : dfs fuel q w pkgs repo with l' | _ | _ | _ <;> simp only [hq] at h
    · rcases hr : dfsRoots fuel pkgs repo rest with ls | _ | _ | _ <;> simp only [hr] at h
      · injection h with h; subst h
        rcases List.mem_cons.mp hpv with heq | hm
        · subst heq; exact List.mem_append_left _ (dfs_ok_self_mem hq)
        · exact List.mem_append_right _ (ih hr pv hm)
      · simp at h
      · simp at h
      · simp at h
    · simp at h
    · simp at h
    · simp at h

/-! ## Concrete facts about the chain repository `a → b` -/

theorem chain_Hrepo : ∀ p v, lookupStr chainPkgs p = some v →
    (chainRepo p v).isSome := by
  intro p v h
  simp only [chainPkgs, lookupStr] at h
  split_ifs at h with h1 h2 <;> injection h with h
  · subst h1; subst h; decide
  · subst h2; subst h; decide

theorem chain_Hdeps : ∀ p v meta deps, lookupStr chainPkgs p = some v →
    chainRepo p v = some meta → meta.depends = some deps →
    ∀ d ∈ deps, (lookupStr chainPkgs d).isSome := by
  intro p v meta deps hlook hm hd d hdm
  simp only [chainPkgs, lookupStr] at hlook
  split_ifs at hlook with h1 h2 <;> injection hlook with hlook
  · subst h1; subst hlook
    have hmv : meta = { make := "noop", depends := some ["b"] } := by
      have hm' : chainRepo "a" "1" =
          some { make := "noop", depends := some ["b"] } := by decide
      rw [hm'] at hm; injection hm with hm; exact hm.symm
    subst hmv
    injection hd with hd
    subst hd
    have hdb : d = "b" := by simpa using hdm
    subst hdb
    decide
  · subst h2; subst hlook
    have hmv : meta = { make := "noop" } := by
      have hm' : chainRepo "b" "2" = some { make := "noop" } := by decide
      rw [hm'] at hm; injection hm with hm; exact hm.symm
    subst hmv
    simp at hd

theorem chain_Hrank : ∀ p d, dependsOn chainPkgs chainRepo p d →
    chainRank d < chainRank p := by
  rintro p d ⟨v, meta, deps, hlook, hm, hd, hdm⟩
  simp only [chainPkgs, lookupStr] at hlook
  split_ifs at hlook with h1 h2 <;> injection hlook with hlook
  · subst h1; subst hlook
    have hmv : meta = { make := "noop", depends := some ["b"] } := by
      have hm' : chainRepo "a" "1" =
          some { make := "noop", depends := some ["b"] } := by decide
      rw [hm'] at hm; injection hm with hm; exact hm.symm
    subst hmv
    injection hd with hd
    subst hd
    have hdb : d = "b" := by simpa using hdm
    subst hdb
    decide
  · subst h2; subst hlook
    have hmv : meta = { make := "noop" } := by
      have hm' : chainRepo "b" "2" = some { make := "noop" } := by decide
      rw [hm'] at hm; injection hm with hm; exact hm.symm
    subst hmv
    simp at hd

/-! ## C9: termination on acyclic graphs, divergence on cycles -/

/-- C9: when the version-specific dependency graph of the requested set
is acyclic (witnessed by a strictly decreasing rank) and all declared
dependencies are requested, the depth-first resolution terminates
(produces a build order within fuel exceeding every root's rank); and
on a cyclic graph the traversal recurses without bound — concretely,
the self-dependent package `a` of `cycleRepo` exhausts every amount of
fuel. -/
theorem dfs_termination (pkgs : List (String × String)) (repo : Repo)
    (rank : String → Nat) (fuel : Nat)
    (Hnodup : (pkgs.map Prod.fst).Nodup)
    (Hrepo : ∀ p v, lookupStr pkgs p = some v → (repo p v).isSome)
    (Hdeps : ∀ p v meta deps, lookupStr pkgs p = some v → repo p v = some meta →
      meta.depends = some deps → ∀ d ∈ deps, (lookupStr pkgs d).isSome)
    (Hrank : ∀ p d, dependsOn pkgs repo p d → rank d < rank p)
    (Hfuel : ∀ pv ∈ pkgs, rank pv.1 < fuel) :
    (∃ order, resolveOrder fuel pkgs repo = .ok order) ∧
    (∀ f, resolveOrder f cyclePkgs cycleRepo = .outOfFuel) := by
  constructor
  · have hroots : ∀ pv ∈ pkgs, ∃ l, dfs fuel pv.1 pv.2 pkgs repo = .ok l := by
      intro pv hpv
      exact dfs_ok_of_rank Hrepo Hdeps Hrank fuel pv.1 pv.2
        (lookupStr_of_mem_nodup Hnodup ((show (pv.1, pv.2) = pv from rfl) ▸ hpv))
        (Hfuel pv hpv)
    obtain ⟨E, hE⟩ := dfsRoots_ok hroots
    exact ⟨firstSeenDedup E, by simp only [resolveOrder, resolveEmissions, hE]⟩
  · intro f
    have hc := dfs_cycle_out_of_fuel f
    simp only [cyclePkgs] at hc
    simp only [resolveOrder, resolveEmissions, cyclePkgs, dfsRoots, hc]

/-- Witness for C9: the chain `a → b` resolves with fuel 2; the
self-cycle exhausts fuel 5. -/
theorem dfs_termination_witness :
    (∃ order, resolveOrder 2 chainPkgs chainRepo = .ok order) ∧
    resolveOrder 5 cyclePkgs cycleRepo = .outOfFuel := by
  have h := dfs_termination chainPkgs chainRepo chainRank 2
    (by decide) chain_Hrepo chain_Hdeps chain_Hrank (by decide)
  exact ⟨h.1, h.2 5⟩

/-! ## C1: correctness of the resolved build plan -/

/-- C1: for a requested set (distinct keys) and repository where every
requested package has metadata, all declared dependencies are
requested, and the version-specific dependency graph is acyclic
(witnessed by a strictly decreasing rank), the resolution phase
produces, for sufficient fuel, the emission stream `E` and build plan
`firstSeenDedup E` such that: the plan has no duplicates and contains
each requested package exactly once; every package of the plan appears
strictly after each of its transitive dependencies; and the plan orders
packages by their first emission (first-seen order), so a package
reachable by several paths sits at the position of its first
emission. -/
theorem resolve_build_plan_correct (pkgs : List (String × String)) (repo : Repo)
    (rank : String → Nat) (fuel : Nat)
    (Hnodup : (pkgs.map Prod.fst).Nodup)
    (Hrepo : ∀ p v, lookupStr pkgs p = some v → (repo p v).isSome)
    (Hdeps : ∀ p v meta deps, lookupStr pkgs p = some v → repo p v = some meta →
      meta.depends = some deps → ∀ d ∈ deps, (lookupStr pkgs d).isSome)
    (Hrank : ∀ p d, dependsOn pkgs repo p d → rank d < rank p)
    (Hfuel : ∀ pv ∈ pkgs, rank pv.1 < fuel) :
    ∃ E, resolveEmissions fuel pkgs repo = .ok E ∧
      resolveOrder fuel pkgs repo = .ok (firstSeenDedup E) ∧
      (firstSeenDedup E).Nodup ∧
      (∀ pv ∈ pkgs, (firstSeenDedup E).count pv.1 = 1) ∧
      (∀ q ∈ firstSeenDedup E, ∀ d, Relation.TransGen (dependsOn pkgs repo) q d →
        d ∈ firstSeenDedup E ∧
        List.indexOf d (firstSeenDedup E) < List.indexOf q (firstSeenDedup E)) ∧
      (∀ a b, a ∈ E → b ∈ E → a ≠ b →
        (List.indexOf a (firstSeenDedup E) < List.indexOf b (firstSeenDedup E) ↔
          List.indexOf a E < List.indexOf b E)) := by
  have hroots : ∀ pv ∈ pkgs, ∃ l, dfs fuel pv.1 pv.2 pkgs repo = .ok l := by
    intro pv hpv
    exact dfs_ok_of_rank Hrepo Hdeps Hrank fuel pv.1 pv.2
      (lookupStr_of_mem_nodup Hnodup ((show (pv.1, pv.2) = pv from rfl) ▸ hpv))
      (Hfuel pv hpv)
  obtain ⟨E, hE⟩ := dfsRoots_ok hroots
  have hE' : resolveEmissions fuel pkgs repo = .ok E := hE
  have hres : resolveOrder fuel pkgs repo = .ok (firstSeenDedup E) := by
    simp only [resolveOrder, hE']
  have hDnodup : (firstSeenDedup E).Nodup := nodup_dedupAux [] E
  have hmemD : ∀ x, x ∈ firstSeenDedup E ↔ x ∈ E := by
    intro x
    rw [show firstSeenDedup E = dedupAux [] E from rfl, mem_dedupAux]
    simp
  have hord : OrderedFrom (dependsOn pkgs repo) [] E :=
    dfsRoots_ordered Hnodup (fun pv h => h) hE []
  have hidx : ∀ a b, a ∈ E → b ∈ E → a ≠ b →
      List.indexOf a E < List.indexOf b E →
      List.indexOf a (firstSeenDedup E) < List.indexOf b (firstSeenDedup E) := by
    intro a b ha hb hab h
    exact dedupAux_indexOf_lt ha hb (by simp) (by simp) hab h
  have hstep : ∀ q, q ∈ firstSeenDedup E → ∀ d, dependsOn pkgs repo q d →
      d ∈ firstSeenDedup E ∧
      List.indexOf d (firstSeenDedup E) < List.indexOf q (firstSeenDedup E) := by
    intro q hq d hqd
    have hdq : d ≠ q := by
      intro h
      subst h
      exact absurd (Hrank d d hqd) (lt_irrefl _)
    have hqE : q ∈ E := (hmemD q).mp hq
    have hpre : ∀ L₁ L₂, E = L₁ ++ q :: L₂ → d ∈ L₁ := by
      intro L₁ L₂ hsplit
      simpa using hord L₁ q L₂ hsplit d hqd
    obtain ⟨hdE, hlt⟩ := indexOf_lt_of_preceded hpre hqE hdq
    exact ⟨(hmemD d).mpr hdE, hidx d q hdE hqE hdq hlt⟩
  have htrans : ∀ q, q ∈ firstSeenDedup E →
      ∀ d, Relation.TransGen (dependsOn pkgs repo) q d →
      d ∈ firstSeenDedup E ∧
      List.indexOf d (firstSeenDedup E) < List.indexOf q (firstSeenDedup E) := by
    intro q hq d h
    induction h with
    | single h1 => exact hstep q hq _ h1
    | tail h1 h2 ih =>
      obtain ⟨hbD, hblt⟩ := ih
      obtain ⟨hcD, hclt⟩ := hstep _ hbD _ h2
      exact ⟨hcD, lt_trans hclt hblt⟩
  have hcount : ∀ pv ∈ pkgs, (firstSeenDedup E).count pv.1 = 1 := by
    intro pv hpv
    have hmem : pv.1 ∈ E := dfsRoots_roots_mem hE pv hpv
    exact List.count_eq_one_of_mem hDnodup ((hmemD pv.1).mpr hmem)
  have hiff : ∀ a b, a ∈ E → b ∈ E → a ≠ b →
      (List.indexOf a (firstSeenDedup E) < List.indexOf b (firstSeenDedup E) ↔
        List.indexOf a E < List.indexOf b E) := by
    intro a b ha hb hab
    constructor
    · intro h
      by_contra hc
      push_neg at hc
      rcases lt_or_eq_of_le hc with hlt | heq
      · have := hidx b a hb ha (Ne.symm hab) hlt
        omega
      · exact hab ((List.indexOf_inj ha hb).mp heq.symm)
    · exact hidx a b ha hb hab
  exact ⟨E, hE', hres, hDnodup, hcount, htrans, hiff⟩

/-- Witness for C1 on the chain `a → b`: the resolved plan is
`["b", "a"]` and the dependency `b` sits strictly before `a`. -/
theorem resolve_build_plan_correct_witness :
    resolveOrder 2 chainPkgs chainRepo = .ok ["b", "a"] ∧
    List.indexOf "b" ["b", "a"] < List.indexOf "a" ["b", "a"] := by
  obtain ⟨E, hE, hres, hnodup, hcount, htopo, hfirst⟩ :=
    resolve_build_plan_correct chainPkgs chainRepo chainRank 2 (by decide)
      chain_Hrepo chain_Hdeps chain_Hrank (by decide)
  have hEval : E = ["b", "a", "b"] := by
    have h2 : resolveEmissions 2 chainPkgs chainRepo = .ok ["b", "a", "b"] := by decide
    rw [h2] at hE
    injection hE with h
    exact h.symm
  subst hEval
  have hD : firstSeenDedup ["b", "a", "b"] = ["b", "a"] := by decide
  rw [hD] at hres htopo
  refine ⟨hres, ?_⟩
  have hdep : dependsOn chainPkgs chainRepo "a" "b" :=
    ⟨"1", { make := "noop", depends := some ["b"] }, ["b"],
      by decide, by decide, rfl, by decide⟩
  exact (htopo "a" (by decide) "b" (Relation.TransGen.single hdep)).2

end Komodo
